import Mathlib

/-!
Verification of the GraNNI correspondence-recovery core (notebook
the RAG scan notebook) against its natural-language specification.

The numerical pipeline is shallowly embedded over exact real arithmetic:
point clouds are `Matrix (Fin d) (Fin n) ℝ`, the float computations of the
source become the corresponding exact operations on `ℝ`.  Calls into
external numerical libraries (`np.linalg.svd`, `scipy.optimize`'s
quadratic-assignment heuristic and `linear_sum_assignment`, the
`multiprocess` pool) are modelled by the mathematical contract the library
documents: an SVD call is represented by factors `U`, `σ`, `Vt` together
with the orthogonality/reconstruction hypotheses that every SVD satisfies,
and the randomized optimizer / assignment solver are abstract parameters of
the pipeline.
-/

namespace GraNNI

open Matrix

/-! ## Geometry utilities (notebook cells `bar`, `barycentered`) -/

/-- Barycenter of a point cloud `A`, one `d`-vector: `np.sum(A, axis=1)/A.shape[1]`. -/
noncomputable def bar {d n : ℕ} (A : Matrix (Fin d) (Fin n) ℝ) : Fin d → ℝ :=
  fun i => (∑ j, A i j) / n

/-- Centering a point cloud `A`: subtract the barycenter from every column,
`np.array([vec - bar_A for vec in A.T]).T`. -/
noncomputable def barycentered {d n : ℕ} (A : Matrix (Fin d) (Fin n) ℝ) :
    Matrix (Fin d) (Fin n) ℝ :=
  Matrix.of fun i j => A i j - bar A i

/-! ## Kernel-projection builder (notebook cell `ortho_proj_ker`)

`ortho_proj_ker(X)` computes `Ux, Sigmax, Vx = np.linalg.svd(X)`, sets
`rank = Sigmax.shape[0]` (which is `min d k`, i.e. `d` in the regime
`d ≤ k` used by the pipeline), takes `ker = Vx[:rank]` (the first `rank`
rows of the factor `Vᵀ`) and returns `proj = ker.T @ ker`.

`np.linalg.svd` is an external library call; it is represented by the
returned factor `Vt` (numpy's `Vx`), and theorems about the builder carry
the hypotheses that characterise `(U, σ, Vt)` as a singular value
decomposition of `X`. -/

/-- The rectangular `d × k` singular-value matrix `Σ` with `σ` on the main
diagonal, as in `X = U Σ Vᵀ` for a `d × k` input with `d ≤ k`. -/
def sigmaMat (d k : ℕ) (σ : Fin d → ℝ) : Matrix (Fin d) (Fin k) ℝ :=
  Matrix.of fun i j => if (j : ℕ) = (i : ℕ) then σ i else 0

/-- `ker = Vx[:rank]`: the first `d` rows of the SVD factor `Vᵀ`
(`rank = Sigmax.shape[0] = min d k = d` since `d ≤ k`). -/
def kerBasis {d k : ℕ} (hdk : d ≤ k) (Vt : Matrix (Fin k) (Fin k) ℝ) :
    Matrix (Fin d) (Fin k) ℝ :=
  Matrix.of fun i j => Vt (Fin.castLE hdk i) j

/-- `ortho_proj_ker`: `proj = ker.T @ ker` where `ker = Vx[:rank]` and `Vx`
is the `Vᵀ` factor returned by `np.linalg.svd(X)`. -/
def ortho_proj_ker {d k : ℕ} (hdk : d ≤ k) (Vt : Matrix (Fin k) (Fin k) ℝ) :
    Matrix (Fin k) (Fin k) ℝ :=
  (kerBasis hdk Vt)ᵀ * kerBasis hdk Vt

/-! ## Helper lemmas about single-entry sums -/

lemma sum_ite_val_fin {d k : ℕ} (hdk : d ≤ k) (i : Fin d) (g : Fin k → ℝ) :
    (∑ j : Fin k, if (j : ℕ) = (i : ℕ) then g j else 0) = g (Fin.castLE hdk i) := by
  rw [Finset.sum_eq_single (Fin.castLE hdk i)]
  · simp
  · intro b _ hb
    rw [if_neg]
    intro hc
    exact hb (Fin.ext hc)
  · intro hmem
    exact absurd (Finset.mem_univ _) hmem

lemma sum_ite_val_fin_lt {d k : ℕ} (l : Fin k) (f : Fin d → ℝ) :
    (∑ i : Fin d, if (l : ℕ) = (i : ℕ) then f i else 0)
      = if h : (l : ℕ) < d then f ⟨l, h⟩ else 0 := by
  by_cases h : (l : ℕ) < d
  · rw [dif_pos h, Finset.sum_eq_single (⟨l, h⟩ : Fin d)]
    · simp
    · intro b _ hb
      rw [if_neg]
      intro hc
      apply hb
      exact Fin.ext hc.symm
    · intro hmem
      exact absurd (Finset.mem_univ _) hmem
  · rw [dif_neg h]
    apply Finset.sum_eq_zero
    intro i _
    rw [if_neg]
    intro hc
    exact h (hc ▸ i.isLt)

/-! ## Structural lemmas about `kerBasis` -/

lemma kerBasis_mul_transpose {d k : ℕ} (hdk : d ≤ k) (Vt : Matrix (Fin k) (Fin k) ℝ)
    (hV : Vt * Vtᵀ = 1) : kerBasis hdk Vt * (kerBasis hdk Vt)ᵀ = 1 := by
  funext i j
  have h1 : (kerBasis hdk Vt * (kerBasis hdk Vt)ᵀ) i j
      = (Vt * Vtᵀ) (Fin.castLE hdk i) (Fin.castLE hdk j) := by
    simp [Matrix.mul_apply, kerBasis]
  rw [h1, hV]
  by_cases hij : i = j
  · subst hij
    simp
  · rw [Matrix.one_apply_ne hij, Matrix.one_apply_ne]
    intro hc
    exact hij (Fin.castLE_injective hdk hc)

lemma kerBasis_eq_sel_mul {d k : ℕ} (hdk : d ≤ k) (Vt : Matrix (Fin k) (Fin k) ℝ) :
    kerBasis hdk Vt = sigmaMat d k (fun _ => 1) * Vt := by
  funext i j
  have h1 : (sigmaMat d k (fun _ => 1) * Vt) i j
      = ∑ l : Fin k, if (l : ℕ) = (i : ℕ) then Vt l j else 0 := by
    rw [Matrix.mul_apply]
    refine Finset.sum_congr rfl fun l _ => ?_
    simp only [sigmaMat, Matrix.of_apply, ite_mul, one_mul, zero_mul]
  rw [h1, sum_ite_val_fin hdk i fun l => Vt l j]
  rfl

lemma sigmaMat_eq_diagonal_mul_sel {d k : ℕ} (σ : Fin d → ℝ) :
    sigmaMat d k σ = Matrix.diagonal σ * sigmaMat d k (fun _ => 1) := by
  funext i j
  rw [Matrix.diagonal_mul]
  simp only [sigmaMat, Matrix.of_apply]
  by_cases h : (j : ℕ) = (i : ℕ) <;> simp [h]

lemma sel_mul_sel_transpose {d k : ℕ} (hdk : d ≤ k) :
    sigmaMat d k (fun _ => 1) * (sigmaMat d k (fun _ => 1))ᵀ
      = (1 : Matrix (Fin d) (Fin d) ℝ) := by
  have h := kerBasis_mul_transpose hdk (1 : Matrix (Fin k) (Fin k) ℝ) (by simp)
  rwa [kerBasis_eq_sel_mul hdk, Matrix.mul_one] at h

/-- The factorisation `X = U * diagonal σ * kerBasis` underlying both parts of the
row-space analysis: the rows kept by `ker = Vx[:rank]` are exactly the right
singular vectors attached to the `d` singular values. -/
lemma svd_factor_through_kerBasis {d k : ℕ} (hdk : d ≤ k)
    (X : Matrix (Fin d) (Fin k) ℝ) (U : Matrix (Fin d) (Fin d) ℝ)
    (σ : Fin d → ℝ) (Vt : Matrix (Fin k) (Fin k) ℝ)
    (hX : X = U * sigmaMat d k σ * Vt) :
    X = U * Matrix.diagonal σ * kerBasis hdk Vt := by
  rw [hX, sigmaMat_eq_diagonal_mul_sel, kerBasis_eq_sel_mul hdk]
  rw [Matrix.mul_assoc, Matrix.mul_assoc, Matrix.mul_assoc]

/-- C1 (amended): under the SVD hypotheses, with `X` of full rank `d`,
`ortho_proj_ker` is the orthogonal projector onto the ROW SPACE of `X`
(not its orthogonal complement): vectors annihilated by `X` are mapped to
zero, and the rows of `X` are fixed. -/
theorem ortho_proj_ker_is_rowspace_projector {d k : ℕ} (hdk : d ≤ k)
    (X : Matrix (Fin d) (Fin k) ℝ) (U : Matrix (Fin d) (Fin d) ℝ)
    (σ : Fin d → ℝ) (Vt : Matrix (Fin k) (Fin k) ℝ)
    (hU : Uᵀ * U = 1) (hV : Vt * Vtᵀ = 1)
    (hX : X = U * sigmaMat d k σ * Vt) (hfull : ∀ i, σ i ≠ 0) :
    (∀ v : Fin k → ℝ, X.mulVec v = 0 → (ortho_proj_ker hdk Vt).mulVec v = 0)
      ∧ ortho_proj_ker hdk Vt * Xᵀ = Xᵀ := by
  set K := kerBasis hdk Vt with hK
  have hKfact : X = U * Matrix.diagonal σ * K :=
    svd_factor_through_kerBasis hdk X U σ Vt hX
  have hKK : K * Kᵀ = 1 := kerBasis_mul_transpose hdk Vt hV
  constructor
  · intro v hv
    have h1 : (U * (Matrix.diagonal σ * K)).mulVec v = 0 := by
      rw [← Matrix.mul_assoc, ← hKfact]
      exact hv
    have h2 : (Matrix.diagonal σ * K).mulVec v = 0 := by
      have h3 := congrArg (fun w => Uᵀ.mulVec w) h1
      simpa [Matrix.mulVec_mulVec, ← Matrix.mul_assoc, hU] using h3
    have h4 : K.mulVec v = 0 := by
      funext i
      have h5 := congrFun h2 i
      rw [← Matrix.mulVec_mulVec] at h5
      rw [Matrix.mulVec_diagonal] at h5
      have h6 := mul_eq_zero.mp h5
      rcases h6 with h6 | h6
      · exact absurd h6 (hfull i)
      · exact h6
    rw [ortho_proj_ker, ← hK, ← Matrix.mulVec_mulVec, h4, Matrix.mulVec_zero]
  · have hXt : Xᵀ = Kᵀ * Matrix.diagonal σ * Uᵀ := by
      rw [hKfact]
      rw [Matrix.transpose_mul, Matrix.transpose_mul, Matrix.diagonal_transpose]
      rw [Matrix.mul_assoc]
    rw [ortho_proj_ker, ← hK, hXt]
    calc Kᵀ * K * (Kᵀ * Matrix.diagonal σ * Uᵀ)
        = Kᵀ * ((K * Kᵀ) * (Matrix.diagonal σ * Uᵀ)) := by
          simp only [Matrix.mul_assoc]
      _ = Kᵀ * Matrix.diagonal σ * Uᵀ := by
          rw [hKK, Matrix.one_mul, Matrix.mul_assoc]

/-- Witness for C1 (amended) at a concrete SVD instance: `X = [[1, 0]]`,
`U = 1`, `σ = 1`, `Vt = 1`, `v = (0, 1)`. -/
theorem ortho_proj_ker_is_rowspace_projector_witness :
    ((ortho_proj_ker (by norm_num : 1 ≤ 2)
        (1 : Matrix (Fin 2) (Fin 2) ℝ)).mulVec ![0, 1] = 0)
      ∧ ortho_proj_ker (by norm_num : 1 ≤ 2) (1 : Matrix (Fin 2) (Fin 2) ℝ)
          * (!![(1 : ℝ), 0])ᵀ = (!![(1 : ℝ), 0])ᵀ := by
  have h := ortho_proj_ker_is_rowspace_projector (by norm_num : 1 ≤ 2)
    !![(1 : ℝ), 0] 1 (fun _ => 1) 1 (by simp) (by simp)
    (by
      funext i j
      fin_cases i <;> fin_cases j <;>
        simp [sigmaMat, Matrix.one_mul, Matrix.mul_one])
    (fun _ => one_ne_zero)
  refine ⟨h.1 ![0, 1] ?_, h.2⟩
  funext i
  fin_cases i
  simp [Matrix.mulVec, dotProduct, Fin.sum_univ_two]

/-- C1 counterexample: for the concrete `1 × 2` input `X = [[1, 0]]` with the
valid SVD `U = 1`, `σ = (1)`, `Vt = 1`, the vector `v = (0, 1)` satisfies
`X v = 0`, yet `ortho_proj_ker` does NOT fix `v` and does NOT annihilate the
row of `X`: the built projector is the projector onto the row space, not
onto its orthogonal complement as the claim states. -/
theorem ortho_proj_ker_not_complement_projector :
    ((1 : Matrix (Fin 1) (Fin 1) ℝ)ᵀ * 1 = 1)
      ∧ ((1 : Matrix (Fin 2) (Fin 2) ℝ) * (1 : Matrix (Fin 2) (Fin 2) ℝ)ᵀ = 1)
      ∧ (!![(1 : ℝ), 0] = (1 : Matrix (Fin 1) (Fin 1) ℝ) * sigmaMat 1 2 (fun _ => 1)
            * (1 : Matrix (Fin 2) (Fin 2) ℝ))
      ∧ ((!![(1 : ℝ), 0]).mulVec ![0, 1] = 0)
      ∧ (ortho_proj_ker (by norm_num : 1 ≤ 2)
            (1 : Matrix (Fin 2) (Fin 2) ℝ)).mulVec ![0, 1] ≠ ![0, 1]
      ∧ ortho_proj_ker (by norm_num : 1 ≤ 2) (1 : Matrix (Fin 2) (Fin 2) ℝ)
          * (!![(1 : ℝ), 0])ᵀ ≠ 0 := by
  refine ⟨by simp, by simp, ?_, ?_, ?_, ?_⟩
  · funext i j
    fin_cases i <;> fin_cases j <;>
      simp [sigmaMat, Matrix.one_mul, Matrix.mul_one]
  · funext i
    fin_cases i
    simp [Matrix.mulVec, dotProduct, Fin.sum_univ_two]
  · intro hc
    have h1 := congrFun hc 1
    simp [ortho_proj_ker, kerBasis, Matrix.mulVec, dotProduct,
      Fin.sum_univ_two, Matrix.mul_apply, Matrix.one_apply] at h1
  · intro hc
    have h1 := congrFun (congrFun hc 0) 0
    simp [ortho_proj_ker, kerBasis, Matrix.mul_apply,
      Fin.sum_univ_two, Fin.sum_univ_one, Matrix.one_apply] at h1

/-- C8: the kernel-projection operator built from any SVD of `X` is
symmetric, idempotent (exactly, in exact arithmetic), and of rank equal to
the ambient dimension `d`; in particular this holds for every centered
full-rank input. -/
theorem ortho_proj_ker_invariants {d k : ℕ} (hdk : d ≤ k)
    (X : Matrix (Fin d) (Fin k) ℝ) (U : Matrix (Fin d) (Fin d) ℝ)
    (σ : Fin d → ℝ) (Vt : Matrix (Fin k) (Fin k) ℝ)
    (hU : Uᵀ * U = 1) (hV : Vt * Vtᵀ = 1)
    (hX : X = U * sigmaMat d k σ * Vt) :
    (ortho_proj_ker hdk Vt)ᵀ = ortho_proj_ker hdk Vt
      ∧ ortho_proj_ker hdk Vt * ortho_proj_ker hdk Vt = ortho_proj_ker hdk Vt
      ∧ (ortho_proj_ker hdk Vt).rank = d := by
  set K := kerBasis hdk Vt with hK
  have hKK : K * Kᵀ = 1 := kerBasis_mul_transpose hdk Vt hV
  refine ⟨?_, ?_, ?_⟩
  · rw [ortho_proj_ker, ← hK, Matrix.transpose_mul, Matrix.transpose_transpose]
  · rw [ortho_proj_ker, ← hK]
    calc Kᵀ * K * (Kᵀ * K) = Kᵀ * ((K * Kᵀ) * K) := by simp only [Matrix.mul_assoc]
      _ = Kᵀ * K := by rw [hKK, Matrix.one_mul]
  · have hupper : (ortho_proj_ker hdk Vt).rank ≤ d := by
      calc (ortho_proj_ker hdk Vt).rank ≤ K.rank := Matrix.rank_mul_le_right _ _
        _ ≤ Fintype.card (Fin d) := Matrix.rank_le_card_height K
        _ = d := Fintype.card_fin d
    have hsandwich : K * ortho_proj_ker hdk Vt * Kᵀ = 1 := by
      rw [ortho_proj_ker, ← hK]
      calc K * (Kᵀ * K) * Kᵀ = (K * Kᵀ) * (K * Kᵀ) := by simp only [Matrix.mul_assoc]
        _ = 1 := by rw [hKK, Matrix.one_mul]
    have hlower : d ≤ (ortho_proj_ker hdk Vt).rank := by
      have h1 : (K * ortho_proj_ker hdk Vt * Kᵀ).rank ≤ (ortho_proj_ker hdk Vt).rank :=
        le_trans (Matrix.rank_mul_le_left _ _) (Matrix.rank_mul_le_right _ _)
      rw [hsandwich, Matrix.rank_one, Fintype.card_fin] at h1
      exact h1
    exact le_antisymm hupper hlower

/-- Witness for C8 at the concrete SVD instance `X = [[1, 0]]`, `U = 1`,
`σ = (1)`, `Vt = 1`. -/
theorem ortho_proj_ker_invariants_witness :
    (ortho_proj_ker (by norm_num : 1 ≤ 2) (1 : Matrix (Fin 2) (Fin 2) ℝ))ᵀ
        = ortho_proj_ker (by norm_num : 1 ≤ 2) (1 : Matrix (Fin 2) (Fin 2) ℝ)
      ∧ ortho_proj_ker (by norm_num : 1 ≤ 2) (1 : Matrix (Fin 2) (Fin 2) ℝ)
          * ortho_proj_ker (by norm_num : 1 ≤ 2) (1 : Matrix (Fin 2) (Fin 2) ℝ)
        = ortho_proj_ker (by norm_num : 1 ≤ 2) (1 : Matrix (Fin 2) (Fin 2) ℝ)
      ∧ (ortho_proj_ker (by norm_num : 1 ≤ 2) (1 : Matrix (Fin 2) (Fin 2) ℝ)).rank = 1 :=
  ortho_proj_ker_invariants (by norm_num : 1 ≤ 2) !![(1 : ℝ), 0] 1 (fun _ => 1) 1
    (by simp) (by simp)
    (by
      funext i j
      fin_cases i <;> fin_cases j <;>
        simp [sigmaMat, Matrix.one_mul, Matrix.mul_one])

/-! ## Padding for unequal cardinalities (notebook `granni_point_clouds`)

`Px = np.block([[Px, oo.T], [oo, o]])` with `o = np.zeros((m-n, m-n))` and
`oo = np.zeros((m-n, n))`: the `n × n` operator is placed in the top-left
corner of an `m × m` zero matrix. -/

/-- Index identification `Fin n ⊕ Fin (m - n) ≃ Fin m` realising the block
layout of `np.block`. -/
def padProjEquiv {n m : ℕ} (h : n ≤ m) : Fin n ⊕ Fin (m - n) ≃ Fin m :=
  finSumFinEquiv.trans (finCongr (Nat.add_sub_cancel' h))

/-- The padded operator `np.block([[Px, oo.T], [oo, o]])`. -/
def padProj {n m : ℕ} (h : n ≤ m) (Px : Matrix (Fin n) (Fin n) ℝ) :
    Matrix (Fin m) (Fin m) ℝ :=
  Matrix.reindex (padProjEquiv h) (padProjEquiv h)
    (Matrix.fromBlocks Px 0 0 (0 : Matrix (Fin (m - n)) (Fin (m - n)) ℝ))

lemma padProjEquiv_symm_lt {n m : ℕ} (h : n ≤ m) (i : Fin m) (hi : (i : ℕ) < n) :
    (padProjEquiv h).symm i = Sum.inl ⟨i, hi⟩ := by
  rw [Equiv.symm_apply_eq]
  apply Fin.ext
  simp [padProjEquiv]

lemma padProjEquiv_symm_ge {n m : ℕ} (h : n ≤ m) (i : Fin m) (hi : n ≤ (i : ℕ)) :
    (padProjEquiv h).symm i = Sum.inr ⟨(i : ℕ) - n, by omega⟩ := by
  rw [Equiv.symm_apply_eq]
  apply Fin.ext
  simp [padProjEquiv]
  omega

/-- C4: for `n ≤ m` the padded operator has `Px` as its top-left `n × n`
block and zeros everywhere else, and for `n = m` padding is the identity
operation. -/
theorem padProj_spec {n m : ℕ} (h : n ≤ m) (Px : Matrix (Fin n) (Fin n) ℝ) :
    (∀ (i j : Fin m) (hi : (i : ℕ) < n) (hj : (j : ℕ) < n),
        padProj h Px i j = Px ⟨i, hi⟩ ⟨j, hj⟩)
      ∧ (∀ i j : Fin m, n ≤ (i : ℕ) ∨ n ≤ (j : ℕ) → padProj h Px i j = 0)
      ∧ padProj (le_refl n) Px = Px := by
  refine ⟨?_, ?_, ?_⟩
  · intro i j hi hj
    rw [padProj, Matrix.reindex_apply, Matrix.submatrix_apply,
      padProjEquiv_symm_lt h i hi, padProjEquiv_symm_lt h j hj]
    rfl
  · intro i j hij
    rw [padProj, Matrix.reindex_apply, Matrix.submatrix_apply]
    rcases hij with hni | hnj
    · rw [padProjEquiv_symm_ge h i hni]
      rcases hj : (padProjEquiv h).symm j with jl | jr <;>
        simp [Matrix.fromBlocks]
    · rw [padProjEquiv_symm_ge h j hnj]
      rcases hi : (padProjEquiv h).symm i with il | ir <;>
        simp [Matrix.fromBlocks]
  · funext i j
    rw [padProj, Matrix.reindex_apply, Matrix.submatrix_apply,
      padProjEquiv_symm_lt (le_refl n) i i.isLt,
      padProjEquiv_symm_lt (le_refl n) j j.isLt]
    simp [Matrix.fromBlocks]

/-- Witness for C4 at `n = 1`, `m = 2`, `Px = [[5]]`. -/
theorem padProj_spec_witness :
    padProj (by norm_num : 1 ≤ 2) !![(5 : ℝ)] 1 1 = 0
      ∧ padProj (le_refl 1) !![(5 : ℝ)] = !![(5 : ℝ)] := by
  have h := padProj_spec (by norm_num : (1 : ℕ) ≤ 2) !![(5 : ℝ)]
  exact ⟨h.2.1 1 1 (Or.inl (by norm_num)), h.2.2⟩

/-! ## C9: centering -/

/-- C9: the barycenter of a centered cloud is the zero vector, and centering
is idempotent.  (The embedding is purely functional, so the input `A` itself
is never mutated, matching the copy semantics of the source.) -/
theorem centering_spec {d n : ℕ} (hn : 1 ≤ n) (A : Matrix (Fin d) (Fin n) ℝ) :
    bar (barycentered A) = 0
      ∧ barycentered (barycentered A) = barycentered A := by
  have hne : (n : ℝ) ≠ 0 := Nat.cast_ne_zero.mpr (by omega)
  have h1 : bar (barycentered A) = 0 := by
    funext i
    simp only [bar, barycentered, Matrix.of_apply, Pi.zero_apply]
    rw [Finset.sum_sub_distrib, Finset.sum_const, Finset.card_univ,
      Fintype.card_fin, nsmul_eq_mul]
    field_simp
  refine ⟨h1, ?_⟩
  funext i j
  have h2 : bar (barycentered A) i = 0 := by rw [h1]; rfl
  show barycentered A i j - bar (barycentered A) i = barycentered A i j
  rw [h2, sub_zero]

/-- Witness for C9 at the concrete `1 × 2` cloud `A = [[1, 3]]`. -/
theorem centering_spec_witness :
    bar (barycentered !![(1 : ℝ), 3]) = 0
      ∧ barycentered (barycentered !![(1 : ℝ), 3]) = barycentered !![(1 : ℝ), 3] :=
  centering_spec (by norm_num) !![(1 : ℝ), 3]

/-! ## Randomized matching engine (notebook `f_opt` and the worker pool)

Each trial `i` of `f_opt` first executes `np.random.seed(i)` and then calls
the external randomized quadratic-assignment heuristic
(`scipy.optimize.quadratic_assignment(..., method="faq")`), which consumes
the freshly seeded generator state.  The heuristic is modelled as an abstract
function `faq : state → Px → Py → (permutation, new state)`; the pool
worker threads its generator state through consecutive trials, and the
reseed makes every trial's outcome a function of the trial index alone. -/

/-- One trial's emitted data: `(weight, s, i)`. -/
structure TrialOut (m : ℕ) where
  weight : ℝ
  smat : Matrix (Fin m) (Fin m) ℝ
  idx : ℕ

/-- `np.random.seed(i)`: the generator state after reseeding from the trial
index. -/
def npSeed (i : ℕ) : ℕ := i

/-- The permutation matrix `s = I[ind]`: row `r` of `s` is the `ind r`-th
row of the identity. -/
def permMatrix {m : ℕ} (π : Equiv.Perm (Fin m)) : Matrix (Fin m) (Fin m) ℝ :=
  Matrix.of fun r c => if c = π r then 1 else 0

/-- The confidence weight
`np.exp(-1000.0 * (np.trace(Px @ s @ Py @ s.T) - dim) ** 2)`. -/
noncomputable def trialWeight (dim : ℕ) {m : ℕ}
    (Px Py S : Matrix (Fin m) (Fin m) ℝ) : ℝ :=
  Real.exp (-1000 * (Matrix.trace (Px * S * Py * Sᵀ) - (dim : ℝ)) ^ 2)

/-- One execution of `f_opt(i)` on a worker whose generator is in `state`:
reseed from `i`, run the heuristic, emit `(weight, s, i)` and the new
generator state. -/
noncomputable def fOptStep {m : ℕ}
    (faq : ℕ → Matrix (Fin m) (Fin m) ℝ → Matrix (Fin m) (Fin m) ℝ →
      Equiv.Perm (Fin m) × ℕ)
    (Px Py : Matrix (Fin m) (Fin m) ℝ) (i : ℕ) (state : ℕ) : TrialOut m × ℕ :=
  let s0 := npSeed i
  let r := faq s0 Px Py
  (⟨trialWeight 3 Px Py (permMatrix r.1), permMatrix r.1, i⟩, r.2)

/-- The trial outcome as a function of the trial index alone (the reseed in
`f_opt` makes the incoming worker state irrelevant). -/
noncomputable def fOptPure {m : ℕ}
    (faq : ℕ → Matrix (Fin m) (Fin m) ℝ → Matrix (Fin m) (Fin m) ℝ →
      Equiv.Perm (Fin m) × ℕ)
    (Px Py : Matrix (Fin m) (Fin m) ℝ) (i : ℕ) : TrialOut m :=
  (fOptStep faq Px Py i 0).1

/-- A pool worker processing its assigned list of trial indices in order,
threading its private generator state. -/
noncomputable def runWorker {m : ℕ}
    (faq : ℕ → Matrix (Fin m) (Fin m) ℝ → Matrix (Fin m) (Fin m) ℝ →
      Equiv.Perm (Fin m) × ℕ)
    (Px Py : Matrix (Fin m) (Fin m) ℝ) : ℕ → List ℕ → List (TrialOut m)
  | _, [] => []
  | state, i :: rest =>
      (fOptStep faq Px Py i state).1 ::
        runWorker faq Px Py (fOptStep faq Px Py i state).2 rest

/-- A pool execution: each worker is given an initial generator state and a
list of trial indices; the collected output is the concatenation of the
per-worker outputs (one completion order of `pool.map`). -/
noncomputable def poolRun {m : ℕ}
    (faq : ℕ → Matrix (Fin m) (Fin m) ℝ → Matrix (Fin m) (Fin m) ℝ →
      Equiv.Perm (Fin m) × ℕ)
    (Px Py : Matrix (Fin m) (Fin m) ℝ) (cfg : List (ℕ × List ℕ)) :
    List (TrialOut m) :=
  (cfg.map fun w => runWorker faq Px Py w.1 w.2).flatten

/-- The aggregation `mat = sum([v[0]*v[1] for v in vals])`. -/
noncomputable def aggregateOf {m : ℕ} (vals : List (TrialOut m)) :
    Matrix (Fin m) (Fin m) ℝ :=
  (vals.map fun v => v.weight • v.smat).sum

/-- The aggregated matrix of a run over trials `0, …, n_iter - 1` in index
order — the canonical (schedule-independent) value of `mat`. -/
noncomputable def aggMat {m : ℕ}
    (faq : ℕ → Matrix (Fin m) (Fin m) ℝ → Matrix (Fin m) (Fin m) ℝ →
      Equiv.Perm (Fin m) × ℕ)
    (Px Py : Matrix (Fin m) (Fin m) ℝ) (nIter : ℕ) :
    Matrix (Fin m) (Fin m) ℝ :=
  aggregateOf ((List.range nIter).map (fOptPure faq Px Py))

lemma runWorker_eq_map {m : ℕ}
    (faq : ℕ → Matrix (Fin m) (Fin m) ℝ → Matrix (Fin m) (Fin m) ℝ →
      Equiv.Perm (Fin m) × ℕ)
    (Px Py : Matrix (Fin m) (Fin m) ℝ) (state : ℕ) (l : List ℕ) :
    runWorker faq Px Py state l = l.map (fOptPure faq Px Py) := by
  induction l generalizing state with
  | nil => rfl
  | cons i rest ih =>
      show (fOptStep faq Px Py i state).1 ::
          runWorker faq Px Py (fOptStep faq Px Py i state).2 rest
        = fOptPure faq Px Py i :: rest.map (fOptPure faq Px Py)
      rw [ih]
      rfl

lemma poolRun_eq_map {m : ℕ}
    (faq : ℕ → Matrix (Fin m) (Fin m) ℝ → Matrix (Fin m) (Fin m) ℝ →
      Equiv.Perm (Fin m) × ℕ)
    (Px Py : Matrix (Fin m) (Fin m) ℝ) (cfg : List (ℕ × List ℕ)) :
    poolRun faq Px Py cfg
      = ((cfg.map Prod.snd).flatten).map (fOptPure faq Px Py) := by
  rw [poolRun, List.map_flatten, List.map_map]
  congr 1
  refine List.map_congr_left fun w _ => ?_
  exact runWorker_eq_map faq Px Py w.1 w.2

/-- C2: the weight of every trial is exactly
`exp(-1000 * (trace(Px s Py sᵀ) - 3)²)`; a permutation achieving trace `3`
gets weight exactly `1`, and a permutation whose trace is off by `δ` gets
weight `exp(-1000 δ²)` (so in particular at most that bound). -/
theorem confidence_weight_spec {m : ℕ} (Px Py S : Matrix (Fin m) (Fin m) ℝ) :
    trialWeight 3 Px Py S
        = Real.exp (-1000 * (Matrix.trace (Px * S * Py * Sᵀ) - 3) ^ 2)
      ∧ (Matrix.trace (Px * S * Py * Sᵀ) = 3 → trialWeight 3 Px Py S = 1)
      ∧ (∀ δ : ℝ, |Matrix.trace (Px * S * Py * Sᵀ) - 3| = δ →
          trialWeight 3 Px Py S ≤ Real.exp (-1000 * δ ^ 2))
      ∧ (∀ (faq : ℕ → Matrix (Fin m) (Fin m) ℝ → Matrix (Fin m) (Fin m) ℝ →
            Equiv.Perm (Fin m) × ℕ) (i state : ℕ),
          (fOptStep faq Px Py i state).1.weight
            = trialWeight 3 Px Py (fOptStep faq Px Py i state).1.smat) := by
  refine ⟨?_, ?_, ?_, ?_⟩
  · norm_num [trialWeight]
  · intro h
    rw [trialWeight, h]
    norm_num
  · intro δ hδ
    rw [trialWeight]
    apply le_of_eq
    rw [← hδ]
    norm_num [sq_abs]
  · intro faq i state
    rfl

/-- Witness for C2: the identity permutation on identity operators has
trace `3` and weight exactly `1`. -/
theorem confidence_weight_spec_witness :
    trialWeight 3 (1 : Matrix (Fin 3) (Fin 3) ℝ) 1 1 = 1 := by
  apply (confidence_weight_spec (1 : Matrix (Fin 3) (Fin 3) ℝ) 1 1).2.1
  simp [Matrix.trace_one]

/-- C5: the aggregated matrix is independent of how the trials are
distributed over workers, of the workers' incoming generator states and of
the completion order: any pool configuration whose assigned trials form a
permutation of `0, …, n_iter - 1` yields the canonical `Mat = Σ wᵢ·Sᵢ`, so
two runs agree exactly, and so does the final correspondence extracted from
`Mat`. -/
theorem pool_scheduling_determinism {m : ℕ}
    (faq : ℕ → Matrix (Fin m) (Fin m) ℝ → Matrix (Fin m) (Fin m) ℝ →
      Equiv.Perm (Fin m) × ℕ)
    (Px Py : Matrix (Fin m) (Fin m) ℝ)
    (extractor : Matrix (Fin m) (Fin m) ℝ → (Fin m → Fin m))
    (nIter : ℕ) (cfg₁ cfg₂ : List (ℕ × List ℕ))
    (h₁ : List.Perm (cfg₁.map Prod.snd).flatten (List.range nIter))
    (h₂ : List.Perm (cfg₂.map Prod.snd).flatten (List.range nIter)) :
    aggregateOf (poolRun faq Px Py cfg₁) = aggMat faq Px Py nIter
      ∧ aggregateOf (poolRun faq Px Py cfg₁) = aggregateOf (poolRun faq Px Py cfg₂)
      ∧ extractor (aggregateOf (poolRun faq Px Py cfg₁))
          = extractor (aggregateOf (poolRun faq Px Py cfg₂)) := by
  have key : ∀ cfg : List (ℕ × List ℕ),
      List.Perm (cfg.map Prod.snd).flatten (List.range nIter) →
      aggregateOf (poolRun faq Px Py cfg) = aggMat faq Px Py nIter := by
    intro cfg h
    rw [poolRun_eq_map, aggMat, aggregateOf, aggregateOf,
      List.map_map, List.map_map]
    exact List.Perm.sum_eq (List.Perm.map _ h)
  have e₁ := key cfg₁ h₁
  have e₂ := key cfg₂ h₂
  refine ⟨e₁, e₁.trans e₂.symm, ?_⟩
  rw [e₁, e₂]

/-- Witness for C5: two concrete schedules of two trials — a single worker
running both trials in order, versus two workers with different generator
states each running one trial, collected in reversed order. -/
theorem pool_scheduling_determinism_witness :
    aggregateOf (poolRun (fun s _ _ => (Equiv.refl (Fin 1), s))
          (0 : Matrix (Fin 1) (Fin 1) ℝ) 0 [(0, [0, 1])])
        = aggMat (fun s _ _ => (Equiv.refl (Fin 1), s)) 0 0 2
      ∧ aggregateOf (poolRun (fun s _ _ => (Equiv.refl (Fin 1), s))
            (0 : Matrix (Fin 1) (Fin 1) ℝ) 0 [(0, [0, 1])])
          = aggregateOf (poolRun (fun s _ _ => (Equiv.refl (Fin 1), s))
              (0 : Matrix (Fin 1) (Fin 1) ℝ) 0 [(5, [1]), (9, [0])]) := by
  have h := pool_scheduling_determinism (fun s _ _ => (Equiv.refl (Fin 1), s))
    (0 : Matrix (Fin 1) (Fin 1) ℝ) 0 (fun _ => id) 2
    [(0, [0, 1])] [(5, [1]), (9, [0])] (by decide) (by decide)
  exact ⟨h.1, h.2.1⟩

/-! ## The pipeline `granni_point_clouds` (post-sampling core)

The core operates on the two sampled coordinate matrices `X` (3 × num_x)
and `Y` (3 × num_y).  Mesh handling, the synthetic transform and Poisson
sampling that precede it in the notebook are external test-harness
collaborators and out of the core's scope.  The control flow embedded here
is exactly the core's: assert `num_x ≤ num_y`; center both clouds; build
and pad the projectors; run `n_iter` pool trials; aggregate; extract the
assignment; invert `X @ X.T` (`np.linalg.inv` raises on an exactly singular
input) and form `L0`.  The first component of the result records which
trial indices were dispatched to the worker pool before termination. -/

/-- Fatal failures of a run: the `assert(num_x <= num_y)` precondition, and
the `np.linalg.LinAlgError` raised by `np.linalg.inv` on a singular
`X @ X.T`. -/
inductive GranniError
  | inputCardinality
  | singularMatrix
deriving DecidableEq

/-- `L0 = Y[:, col_ind][:, :num_x] @ X.T @ np.linalg.inv(X @ X.T)`. -/
noncomputable def recoveredMap {nx ny : ℕ} (h : nx ≤ ny)
    (Yc : Matrix (Fin 3) (Fin ny) ℝ) (colInd : Fin ny → Fin ny)
    (Xc : Matrix (Fin 3) (Fin nx) ℝ) : Matrix (Fin 3) (Fin 3) ℝ :=
  (Yc.submatrix id colInd).submatrix id (Fin.castLE h) * Xcᵀ * (Xc * Xcᵀ)⁻¹

open scoped Classical

/-- The core of `granni_point_clouds` acting on the sampled clouds, with the
external numerical collaborators as parameters: `proj` is the
kernel-projection builder (`ortho_proj_ker`, i.e. an SVD call), `faq` the
randomized quadratic-assignment heuristic, `extractor` the
`linear_sum_assignment` solver returning `col_ind`.  Returns the list of
dispatched trial indices together with the outcome. -/
noncomputable def granniCore (nx ny : ℕ)
    (proj : (j : ℕ) → Matrix (Fin 3) (Fin j) ℝ → Matrix (Fin j) (Fin j) ℝ)
    (faq : ℕ → Matrix (Fin ny) (Fin ny) ℝ → Matrix (Fin ny) (Fin ny) ℝ →
      Equiv.Perm (Fin ny) × ℕ)
    (extractor : Matrix (Fin ny) (Fin ny) ℝ → (Fin ny → Fin ny))
    (X : Matrix (Fin 3) (Fin nx) ℝ) (Y : Matrix (Fin 3) (Fin ny) ℝ)
    (nIter : ℕ) : List ℕ × Except GranniError (Matrix (Fin 3) (Fin 3) ℝ) :=
  if h : nx ≤ ny then
    if (barycentered X * (barycentered X)ᵀ).det = 0 then
      (List.range nIter, Except.error GranniError.singularMatrix)
    else
      (List.range nIter, Except.ok
        (recoveredMap h (barycentered Y)
          (extractor (aggMat faq (padProj h (proj nx (barycentered X)))
            (proj ny (barycentered Y)) nIter))
          (barycentered X)))
  else ([], Except.error GranniError.inputCardinality)

/-- C6: a pair with `num_x > num_y` is rejected by the
`assert(num_x <= num_y)` precondition before any core computation: the run
fails fatally with the cardinality error and no trial is ever dispatched to
the worker pool. -/
theorem granni_rejects_larger_X {nx ny : ℕ}
    (proj : (j : ℕ) → Matrix (Fin 3) (Fin j) ℝ → Matrix (Fin j) (Fin j) ℝ)
    (faq : ℕ → Matrix (Fin ny) (Fin ny) ℝ → Matrix (Fin ny) (Fin ny) ℝ →
      Equiv.Perm (Fin ny) × ℕ)
    (extractor : Matrix (Fin ny) (Fin ny) ℝ → (Fin ny → Fin ny))
    (X : Matrix (Fin 3) (Fin nx) ℝ) (Y : Matrix (Fin 3) (Fin ny) ℝ)
    (nIter : ℕ) (h : ny < nx) :
    granniCore nx ny proj faq extractor X Y nIter
      = ([], Except.error GranniError.inputCardinality) := by
  rw [granniCore, dif_neg (not_le.mpr h)]

/-- Witness for C6 at `num_x = 1 > 0 = num_y`. -/
theorem granni_rejects_larger_X_witness :
    granniCore 1 0 (fun j _ => (0 : Matrix (Fin j) (Fin j) ℝ))
        (fun s _ _ => (Equiv.refl (Fin 0), s)) (fun _ => id)
        (0 : Matrix (Fin 3) (Fin 1) ℝ) (0 : Matrix (Fin 3) (Fin 0) ℝ) 5
      = ([], Except.error GranniError.inputCardinality) :=
  granni_rejects_larger_X _ _ _ _ _ 5 (by norm_num)

lemma det_self_mul_transpose_eq_zero {nx : ℕ} (A : Matrix (Fin 3) (Fin nx) ℝ)
    (h : nx < 3) : (A * Aᵀ).det = 0 := by
  by_contra hne
  have hunit : IsUnit (A * Aᵀ) :=
    (Matrix.isUnit_iff_isUnit_det _).mpr (isUnit_iff_ne_zero.mpr hne)
  have h1 : (A * Aᵀ).rank = 3 := by
    rw [Matrix.rank_of_isUnit _ hunit, Fintype.card_fin]
  have h2 : (A * Aᵀ).rank ≤ nx := by
    calc (A * Aᵀ).rank ≤ A.rank := Matrix.rank_mul_le_left _ _
      _ ≤ Fintype.card (Fin nx) := Matrix.rank_le_card_width A
      _ = nx := Fintype.card_fin nx
  omega

/-- C7 (amended): a degenerate input — fewer points than the ambient
dimension, or a singular `X @ X.T` — does make the pipeline fail fatally
(`np.linalg.inv` raises on the exactly singular matrix), but the failure
occurs at the final linear-map recovery step, AFTER all `n_iter` parallel
trials have been dispatched and completed; no degenerate-geometry
precondition is checked before dispatching parallel work. -/
theorem granni_degenerate_fails_after_dispatch {nx ny : ℕ}
    (proj : (j : ℕ) → Matrix (Fin 3) (Fin j) ℝ → Matrix (Fin j) (Fin j) ℝ)
    (faq : ℕ → Matrix (Fin ny) (Fin ny) ℝ → Matrix (Fin ny) (Fin ny) ℝ →
      Equiv.Perm (Fin ny) × ℕ)
    (extractor : Matrix (Fin ny) (Fin ny) ℝ → (Fin ny → Fin ny))
    (X : Matrix (Fin 3) (Fin nx) ℝ) (Y : Matrix (Fin 3) (Fin ny) ℝ)
    (nIter : ℕ) (hxy : nx ≤ ny)
    (hdeg : nx < 3 ∨ (barycentered X * (barycentered X)ᵀ).det = 0) :
    granniCore nx ny proj faq extractor X Y nIter
      = (List.range nIter, Except.error GranniError.singularMatrix) := by
  have hdet : (barycentered X * (barycentered X)ᵀ).det = 0 := by
    rcases hdeg with h | h
    · exact det_self_mul_transpose_eq_zero _ h
    · exact h
  rw [granniCore, dif_pos hxy, if_pos hdet]

/-- Witness for C7 (amended): `num_x = 2 < 3` points, one trial. -/
theorem granni_degenerate_fails_after_dispatch_witness :
    granniCore 2 2 (fun j _ => (0 : Matrix (Fin j) (Fin j) ℝ))
        (fun s _ _ => (Equiv.refl (Fin 2), s)) (fun _ => id)
        (0 : Matrix (Fin 3) (Fin 2) ℝ) (0 : Matrix (Fin 3) (Fin 2) ℝ) 1
      = (List.range 1, Except.error GranniError.singularMatrix) :=
  granni_degenerate_fails_after_dispatch _ _ _ _ _ 1 (by norm_num)
    (Or.inl (by norm_num))

/-- C7 counterexample: at the concrete degenerate input with `num_x = 2`
points in dimension 3 (so `X @ X.T` is singular), the run does fail
fatally, but trial index 0 HAS been dispatched to the worker pool —
the dispatched list is `[0] ≠ []` — refuting the claim that this fatal
condition is rejected before any parallel trial work is dispatched. -/
theorem granni_no_predispatch_degeneracy_check :
    granniCore 2 2 (fun j _ => (0 : Matrix (Fin j) (Fin j) ℝ))
        (fun s _ _ => (Equiv.refl (Fin 2), s)) (fun _ => id)
        (0 : Matrix (Fin 3) (Fin 2) ℝ) (0 : Matrix (Fin 3) (Fin 2) ℝ) 1
      = ([0], Except.error GranniError.singularMatrix)
      ∧ ([0] : List ℕ) ≠ [] := by
  constructor
  · have hb : barycentered (0 : Matrix (Fin 3) (Fin 2) ℝ) = 0 := by
      funext i j
      simp [barycentered, bar]
    have hdet : (barycentered (0 : Matrix (Fin 3) (Fin 2) ℝ)
        * (barycentered (0 : Matrix (Fin 3) (Fin 2) ℝ))ᵀ).det = 0 := by
      rw [hb]
      rw [Matrix.zero_mul, Matrix.det_zero ⟨0⟩]
    rw [granniCore, dif_pos (by norm_num : (2 : ℕ) ≤ 2), if_pos hdet]
    simp [List.range_succ]
  · simp

/-- C3: when the run succeeds, the recovered linear map is exactly
`L0 = Y_matched · Xᵀ · (X·Xᵀ)⁻¹`, where `Y_matched` consists of the columns
of the centered `Y` selected by the first `num_x` entries of `col_ind`
(in row order `0 … num_x - 1`), `col_ind` being the linear-assignment
output on the aggregated matrix. -/
theorem recovered_map_closed_form {nx ny : ℕ}
    (proj : (j : ℕ) → Matrix (Fin 3) (Fin j) ℝ → Matrix (Fin j) (Fin j) ℝ)
    (faq : ℕ → Matrix (Fin ny) (Fin ny) ℝ → Matrix (Fin ny) (Fin ny) ℝ →
      Equiv.Perm (Fin ny) × ℕ)
    (extractor : Matrix (Fin ny) (Fin ny) ℝ → (Fin ny → Fin ny))
    (X : Matrix (Fin 3) (Fin nx) ℝ) (Y : Matrix (Fin 3) (Fin ny) ℝ)
    (nIter : ℕ) (hxy : nx ≤ ny)
    (hdet : (barycentered X * (barycentered X)ᵀ).det ≠ 0) :
    (granniCore nx ny proj faq extractor X Y nIter).2
      = Except.ok
          (Matrix.of (fun i j => barycentered Y i
              (extractor (aggMat faq (padProj hxy (proj nx (barycentered X)))
                  (proj ny (barycentered Y)) nIter) (Fin.castLE hxy j)))
            * (barycentered X)ᵀ
            * (barycentered X * (barycentered X)ᵀ)⁻¹) := by
  rw [granniCore, dif_pos hxy, if_neg hdet]
  rfl

/-- Witness for C3 at a concrete nondegenerate centered input: the four
points `e₁, e₂, e₃, -(e₁+e₂+e₃)` give `X·Xᵀ` of determinant 4. -/
theorem recovered_map_closed_form_witness :
    (granniCore 4 4 (fun j _ => (0 : Matrix (Fin j) (Fin j) ℝ))
        (fun s _ _ => (Equiv.refl (Fin 4), s)) (fun _ => id)
        !![1, 0, 0, -1; 0, 1, 0, -1; 0, 0, 1, -1]
        (0 : Matrix (Fin 3) (Fin 4) ℝ) 0).2
      = Except.ok
          (Matrix.of (fun i j => barycentered (0 : Matrix (Fin 3) (Fin 4) ℝ) i
              ((fun _ => id) (aggMat (fun s _ _ => (Equiv.refl (Fin 4), s))
                  (padProj (le_refl 4) ((fun j _ => (0 : Matrix (Fin j) (Fin j) ℝ)) 4
                    (barycentered !![1, 0, 0, -1; 0, 1, 0, -1; 0, 0, 1, -1])))
                  ((fun j _ => (0 : Matrix (Fin j) (Fin j) ℝ)) 4
                    (barycentered (0 : Matrix (Fin 3) (Fin 4) ℝ))) 0)
                (Fin.castLE (le_refl 4) j)))
            * (barycentered !![1, 0, 0, -1; 0, 1, 0, -1; 0, 0, 1, -1])ᵀ
            * (barycentered !![1, 0, 0, -1; 0, 1, 0, -1; 0, 0, 1, -1]
                * (barycentered !![1, 0, 0, -1; 0, 1, 0, -1; 0, 0, 1, -1])ᵀ)⁻¹) := by
  apply recovered_map_closed_form
  have hXc : barycentered !![(1 : ℝ), 0, 0, -1; 0, 1, 0, -1; 0, 0, 1, -1]
      = !![1, 0, 0, -1; 0, 1, 0, -1; 0, 0, 1, -1] := by
    funext i j
    show !![(1 : ℝ), 0, 0, -1; 0, 1, 0, -1; 0, 0, 1, -1] i j
        - bar !![(1 : ℝ), 0, 0, -1; 0, 1, 0, -1; 0, 0, 1, -1] i
      = !![(1 : ℝ), 0, 0, -1; 0, 1, 0, -1; 0, 0, 1, -1] i j
    have hbar : bar !![(1 : ℝ), 0, 0, -1; 0, 1, 0, -1; 0, 0, 1, -1] i = 0 := by
      fin_cases i <;>
        (show (_ : ℝ) / 4 = 0
         rw [Fin.sum_univ_four]
         norm_num)
    rw [hbar, sub_zero]
  rw [hXc]
  have hprod : !![(1 : ℝ), 0, 0, -1; 0, 1, 0, -1; 0, 0, 1, -1]
      * (!![(1 : ℝ), 0, 0, -1; 0, 1, 0, -1; 0, 0, 1, -1])ᵀ
      = !![2, 1, 1; 1, 2, 1; 1, 1, 2] := by
    funext i j
    rw [Matrix.mul_apply, Fin.sum_univ_four]
    fin_cases i <;> fin_cases j <;> norm_num
  rw [hprod]
  simp [Matrix.det_fin_three, Matrix.vecHead, Matrix.vecTail]
  norm_num

/-! ## The unused PSD-ellipsoid-fit routine `psd_fit`

`psd_fit(X, Y)` computes SVDs `Ux, Sigma_x, _ = svd(X)` and
`Uy, Sigma_y, _ = svd(Y)`, forms `Lx = Ux @ diag(Sigma_x)`,
`Ly = Uy @ diag(Sigma_y)`, takes the SVD `W, Sigma, V = svd(Lx.T @ Ly)`,
sets `P = W @ diag(Sigma) @ W.T` and returns `Lx_inv.T @ P @ Lx_inv`.
As with `ortho_proj_ker`, the numpy SVD calls are represented by their
returned factors, constrained by the SVD hypotheses in the theorem. -/

/-- The value returned by `psd_fit`, as a function of the factors returned
by the three SVD calls. -/
noncomputable def psd_fit_P {d : ℕ} (Ux : Matrix (Fin d) (Fin d) ℝ)
    (σx : Fin d → ℝ) (W : Matrix (Fin d) (Fin d) ℝ) (σ : Fin d → ℝ) :
    Matrix (Fin d) (Fin d) ℝ :=
  ((Ux * Matrix.diagonal σx)⁻¹)ᵀ * (W * Matrix.diagonal σ * Wᵀ)
    * (Ux * Matrix.diagonal σx)⁻¹

lemma mul_cancel_one_left {n m : ℕ} {A B : Matrix (Fin n) (Fin n) ℝ}
    (h : A * B = 1) (M : Matrix (Fin n) (Fin m) ℝ) : A * (B * M) = M := by
  rw [← Matrix.mul_assoc, h, Matrix.one_mul]

lemma sigmaMat_mul_transpose {d k : ℕ} (hdk : d ≤ k) (σ : Fin d → ℝ) :
    sigmaMat d k σ * (sigmaMat d k σ)ᵀ
      = Matrix.diagonal (fun i => σ i * σ i) := by
  rw [sigmaMat_eq_diagonal_mul_sel (k := k) σ, Matrix.transpose_mul,
    Matrix.diagonal_transpose]
  calc Matrix.diagonal σ * sigmaMat d k (fun _ => 1)
        * ((sigmaMat d k (fun _ => 1))ᵀ * Matrix.diagonal σ)
      = Matrix.diagonal σ
          * ((sigmaMat d k (fun _ => 1) * (sigmaMat d k (fun _ => 1))ᵀ)
            * Matrix.diagonal σ) := by
        simp only [Matrix.mul_assoc]
    _ = Matrix.diagonal σ * Matrix.diagonal σ := by
        rw [sel_mul_sel_transpose hdk, Matrix.one_mul]
    _ = Matrix.diagonal (fun i => σ i * σ i) := by
        rw [Matrix.diagonal_mul_diagonal]

/-- The Gram matrix of an SVD-factored input: `X Xᵀ = Lx Lxᵀ` for
`Lx = Ux · diag σx`. -/
lemma svd_gram {d k : ℕ} (hdk : d ≤ k) (X : Matrix (Fin d) (Fin k) ℝ)
    (Ux : Matrix (Fin d) (Fin d) ℝ) (σx : Fin d → ℝ)
    (Vxt : Matrix (Fin k) (Fin k) ℝ) (hVx : Vxt * Vxtᵀ = 1)
    (hX : X = Ux * sigmaMat d k σx * Vxt) :
    X * Xᵀ = (Ux * Matrix.diagonal σx) * (Ux * Matrix.diagonal σx)ᵀ := by
  rw [hX]
  simp only [Matrix.transpose_mul, Matrix.diagonal_transpose, Matrix.mul_assoc]
  rw [mul_cancel_one_left hVx]
  rw [← Matrix.mul_assoc (sigmaMat d k σx), sigmaMat_mul_transpose hdk,
    ← Matrix.mul_assoc (Matrix.diagonal σx), Matrix.diagonal_mul_diagonal]

/-- C10: for full-rank `X` and `Y`, `psd_fit` returns a symmetric positive
semidefinite matrix `P` with `P (X Xᵀ) Pᵀ = Y Yᵀ` exactly — it maps the
covariance ellipsoid of `X` onto that of `Y`. -/
theorem psd_fit_spec {d k : ℕ} (hdk : d ≤ k)
    (X Y : Matrix (Fin d) (Fin k) ℝ)
    (Ux : Matrix (Fin d) (Fin d) ℝ) (σx : Fin d → ℝ)
    (Vxt : Matrix (Fin k) (Fin k) ℝ)
    (Uy : Matrix (Fin d) (Fin d) ℝ) (σy : Fin d → ℝ)
    (Vyt : Matrix (Fin k) (Fin k) ℝ)
    (W : Matrix (Fin d) (Fin d) ℝ) (σ : Fin d → ℝ)
    (V : Matrix (Fin d) (Fin d) ℝ)
    (hUx : Ux * Uxᵀ = 1) (hVx : Vxt * Vxtᵀ = 1)
    (hUy : Uy * Uyᵀ = 1) (hVy : Vyt * Vytᵀ = 1)
    (hW : W * Wᵀ = 1) (hV : V * Vᵀ = 1)
    (hX : X = Ux * sigmaMat d k σx * Vxt)
    (hY : Y = Uy * sigmaMat d k σy * Vyt)
    (hσ : ∀ i, 0 ≤ σ i)
    (hL : (Ux * Matrix.diagonal σx)ᵀ * (Uy * Matrix.diagonal σy)
        = W * Matrix.diagonal σ * Vᵀ)
    (hfullx : ∀ i, σx i ≠ 0) :
    (psd_fit_P Ux σx W σ)ᵀ = psd_fit_P Ux σx W σ
      ∧ (psd_fit_P Ux σx W σ).PosSemidef
      ∧ psd_fit_P Ux σx W σ * (X * Xᵀ) * (psd_fit_P Ux σx W σ)ᵀ = Y * Yᵀ := by
  set Lx : Matrix (Fin d) (Fin d) ℝ := Ux * Matrix.diagonal σx with hLx
  set Ly : Matrix (Fin d) (Fin d) ℝ := Uy * Matrix.diagonal σy with hLy
  set T : Matrix (Fin d) (Fin d) ℝ := Lx⁻¹ with hT
  set Q : Matrix (Fin d) (Fin d) ℝ := W * Matrix.diagonal σ * Wᵀ with hQ
  have hP : psd_fit_P Ux σx W σ = Tᵀ * Q * T := rfl
  clear_value T Q Ly Lx
  have hdetLx : IsUnit Lx.det := by
    have h1 : Ux.det * Ux.det = 1 := by
      have h2 := congrArg Matrix.det hUx
      rwa [Matrix.det_mul, Matrix.det_transpose, Matrix.det_one] at h2
    have h3 : Ux.det ≠ 0 := by
      intro h
      rw [h, mul_zero] at h1
      exact zero_ne_one h1
    have h4 : (Matrix.diagonal σx).det ≠ 0 := by
      rw [Matrix.det_diagonal]
      exact Finset.prod_ne_zero_iff.mpr fun i _ => hfullx i
    rw [hLx, Matrix.det_mul]
    exact isUnit_iff_ne_zero.mpr (mul_ne_zero h3 h4)
  have hinv1 : Lx * T = 1 := by
    rw [hT]
    exact Matrix.mul_nonsing_inv Lx hdetLx
  have hinv2 : T * Lx = 1 := by
    rw [hT]
    exact Matrix.nonsing_inv_mul Lx hdetLx
  have hinv1t : Lxᵀ * Tᵀ = 1 := by
    rw [← Matrix.transpose_mul, hinv2, Matrix.transpose_one]
  have hinv2t : Tᵀ * Lxᵀ = 1 := by
    rw [← Matrix.transpose_mul, hinv1, Matrix.transpose_one]
  have hQsym : Qᵀ = Q := by
    rw [hQ, Matrix.transpose_mul, Matrix.transpose_mul,
      Matrix.transpose_transpose, Matrix.diagonal_transpose, Matrix.mul_assoc]
  have hPsym : (psd_fit_P Ux σx W σ)ᵀ = psd_fit_P Ux σx W σ := by
    rw [hP, Matrix.transpose_mul, Matrix.transpose_mul,
      Matrix.transpose_transpose, hQsym, Matrix.mul_assoc]
  have hWtW : Wᵀ * W = 1 := Matrix.mul_eq_one_comm.mp hW
  have hVtV : Vᵀ * V = 1 := Matrix.mul_eq_one_comm.mp hV
  refine ⟨hPsym, ?_, ?_⟩
  · have hBform : psd_fit_P Ux σx W σ
        = (Wᵀ * T)ᵀ * Matrix.diagonal σ * (Wᵀ * T) := by
      rw [hP, Matrix.transpose_mul, Matrix.transpose_transpose, hQ]
      simp only [Matrix.mul_assoc]
    rw [hBform]
    exact (Matrix.posSemidef_diagonal_iff.mpr hσ).conjTranspose_mul_mul_same
      (Wᵀ * T)
  · have hXXt : X * Xᵀ = Lx * Lxᵀ := by
      rw [hLx]
      exact svd_gram hdk X Ux σx Vxt hVx hX
    have hYYt : Y * Yᵀ = Ly * Lyᵀ := by
      rw [hLy]
      exact svd_gram hdk Y Uy σy Vyt hVy hY
    have hQQ1 : Q * Q = (W * Matrix.diagonal σ * Vᵀ)
        * (W * Matrix.diagonal σ * Vᵀ)ᵀ := by
      rw [hQ]
      rw [Matrix.transpose_mul, Matrix.transpose_mul,
        Matrix.transpose_transpose, Matrix.diagonal_transpose]
      simp only [Matrix.mul_assoc]
      rw [mul_cancel_one_left hWtW, mul_cancel_one_left hVtV]
    have hQQ2 : Q * Q = Lxᵀ * ((Y * Yᵀ) * Lx) := by
      rw [hQQ1, ← hL, Matrix.transpose_mul, Matrix.transpose_transpose, hYYt]
      simp only [Matrix.mul_assoc]
    have hQQ : Q * (Q * T) = Lxᵀ * ((Y * Yᵀ) * (Lx * T)) := by
      rw [← Matrix.mul_assoc, hQQ2]
      simp only [Matrix.mul_assoc]
    rw [hPsym, hP, hXXt]
    calc Tᵀ * Q * T * (Lx * Lxᵀ) * (Tᵀ * Q * T)
        = Tᵀ * (Q * (T * (Lx * (Lxᵀ * (Tᵀ * (Q * T)))))) := by
          simp only [Matrix.mul_assoc]
      _ = Tᵀ * (Q * (Lxᵀ * (Tᵀ * (Q * T)))) := by
          rw [mul_cancel_one_left hinv2]
      _ = Tᵀ * (Q * (Q * T)) := by
          rw [mul_cancel_one_left hinv1t]
      _ = Tᵀ * (Lxᵀ * ((Y * Yᵀ) * (Lx * T))) := by rw [hQQ]
      _ = Tᵀ * (Lxᵀ * (Y * Yᵀ)) := by rw [hinv1, Matrix.mul_one]
      _ = Y * Yᵀ := mul_cancel_one_left hinv2t _

/-- Witness for C10 at the trivial full-rank instance `d = k = 1`,
`X = Y = [[1]]`, with all SVD factors equal to the identity. -/
theorem psd_fit_spec_witness :
    (psd_fit_P (1 : Matrix (Fin 1) (Fin 1) ℝ) (fun _ => 1) 1 (fun _ => 1))ᵀ
        = psd_fit_P (1 : Matrix (Fin 1) (Fin 1) ℝ) (fun _ => 1) 1 (fun _ => 1)
      ∧ (psd_fit_P (1 : Matrix (Fin 1) (Fin 1) ℝ) (fun _ => 1) 1
          (fun _ => 1)).PosSemidef
      ∧ psd_fit_P (1 : Matrix (Fin 1) (Fin 1) ℝ) (fun _ => 1) 1 (fun _ => 1)
          * (!![(1 : ℝ)] * (!![(1 : ℝ)])ᵀ)
          * (psd_fit_P (1 : Matrix (Fin 1) (Fin 1) ℝ) (fun _ => 1) 1
              (fun _ => 1))ᵀ
        = !![(1 : ℝ)] * (!![(1 : ℝ)])ᵀ := by
  have hsig : (1 : Matrix (Fin 1) (Fin 1) ℝ) * sigmaMat 1 1 (fun _ => 1)
      * (1 : Matrix (Fin 1) (Fin 1) ℝ) = !![(1 : ℝ)] := by
    funext i j
    fin_cases i
    fin_cases j
    simp [sigmaMat, Matrix.one_mul, Matrix.mul_one]
  have hdiag : Matrix.diagonal (fun _ : Fin 1 => (1 : ℝ)) = 1 :=
    Matrix.diagonal_one
  exact psd_fit_spec (le_refl 1) !![(1 : ℝ)] !![(1 : ℝ)]
    1 (fun _ => 1) 1 1 (fun _ => 1) 1 1 (fun _ => 1) 1
    (by simp) (by simp) (by simp) (by simp) (by simp) (by simp)
    hsig.symm hsig.symm (fun _ => zero_le_one)
    (by rw [hdiag]; simp)
    (fun _ => one_ne_zero)

end GraNNI
